import Mathlib

/-!
Shallow embedding of the options-pricing repository (src/montecarlo.py and
src/pricing_formulas.py).

Modelling conventions:
* numpy float arithmetic is modelled as exact arithmetic in a linear ordered
  field `F`; the transcendental functions `np.exp`, `np.sqrt`, `np.log`,
  `scipy.stats.norm.cdf` and the float power `**` are passed as explicit
  function parameters (`ex`, `sq`, `lg`, `cdf`, `rpw`), so every definition is
  computable; theorems that need genuine facts about the exponential or the
  square root are stated over `ℝ` with `Real.exp` / `Real.sqrt`.
* a numpy array of shape `(n0, extra...)` is a function `Fin n0 → ι → F`
  where `ι` collapses all trailing axes (`ι = Unit` for a 1-axis array,
  `ι = Fin n2` for 2 axes, and so on); a trajectory array of shape
  `(n0, n1 + 1, extra...)` is a function `Fin n0 → Fin (n1 + 1) → ι → F`.
* `np.random.normal` draws are not modelled; instead every sampling function
  takes the drawn standard-normal array `z` as an explicit argument, so each
  function is the deterministic map that the source applies to its draws.
-/

namespace OptionsPricing

/-- Model parameters, the fixed-key dictionary of the source: initial price
`S0`, interest rate `r`, volatility `sigma`, maturity `T`. -/
structure Params (F : Type) where
  S0 : F
  r : F
  sigma : F
  T : F

variable {F : Type} [LinearOrderedField F] {ι : Type}

/-- np.mean along axis 0 of an array of shape `(m, extra...)`. -/
def mean0 {m : ℕ} (x : Fin m → ι → F) : ι → F :=
  fun j => (∑ i, x i j) / (m : F)

/-- np.std along axis 0 (population standard deviation, ddof = 0):
the square root of the mean of the squared deviations, with the square-root
function `sq` passed explicitly. -/
def std0 (sq : F → F) {m : ℕ} (x : Fin m → ι → F) : ι → F :=
  fun j => sq ((∑ i, (x i j - mean0 x j) ^ 2) / (m : F))

/-- Length of axis 0 after the optional antithetic concatenation. -/
@[reducible] def antiLen (anti : Bool) (n0 : ℕ) : ℕ :=
  match anti with
  | true => 2 * n0
  | false => n0

/-- np.concatenate((samples, -samples)) along axis 0: the first `n0` rows are
the original rows, the remaining `n0` rows are their negations. -/
def antitheticConcat {n0 : ℕ} {α : Type} [Neg α] (z : Fin n0 → α) :
    Fin (2 * n0) → α :=
  fun i => if h : (i : ℕ) < n0 then z ⟨i, h⟩ else -z ⟨(i : ℕ) - n0, by omega⟩

/-- The `if antithetic:` branch of the source applied to the raw samples. -/
def applyAnti {n0 : ℕ} {α : Type} [Neg α] (anti : Bool) (z : Fin n0 → α) :
    Fin (antiLen anti n0) → α :=
  match anti with
  | true => antitheticConcat z
  | false => z

/-- Moment matching of raw normals (montecarlo.py line 35):
`samples = (samples - np.mean(samples, axis=0)) / np.std(samples, axis=0)`. -/
def momentMatchNormals (sq : F → F) {m : ℕ} (x : Fin m → ι → F) :
    Fin m → ι → F :=
  fun i j => (x i j - mean0 x j) / std0 sq x j

/-- The raw-normal sample after the variance-reduction transforms of
`get_samples_final_value` (lines 29-35): antithetic concatenation first if
requested, then moment matching if requested. -/
def transformed_normals (sq : F → F) {n0 : ℕ} (anti mm : Bool)
    (z : Fin n0 → ι → F) : Fin (antiLen anti n0) → ι → F :=
  match mm with
  | true => momentMatchNormals sq (applyAnti anti z)
  | false => applyAnti anti z

/-- montecarlo.py `get_samples_final_value`: draws `z` (given here as an
argument), optionally applies the antithetic and moment-matching transforms,
then returns `S0 * np.exp((r - sigma**2 / 2) * T + sigma * np.sqrt(T) * samples)`. -/
def get_samples_final_value (ex sq : F → F) (p : Params F) {n0 : ℕ}
    (anti mm : Bool) (z : Fin n0 → ι → F) : Fin (antiLen anti n0) → ι → F :=
  fun i j =>
    p.S0 * ex ((p.r - p.sigma ^ 2 / 2) * p.T
      + p.sigma * sq p.T * transformed_normals sq anti mm z i j)

/-- Prepending a zero slice at the start of the time axis followed by
`np.cumsum(·, axis=1)` (montecarlo.py lines 61-64): the value at time index
`k` is the sum of the increments at time indices strictly below `k`. -/
def brownianPath {m n1 : ℕ} (z : Fin m → Fin n1 → ι → F) :
    Fin m → Fin (n1 + 1) → ι → F :=
  fun i k j => ∑ l : Fin n1, if (l : ℕ) < (k : ℕ) then z i l j else 0

/-- montecarlo.py lines 71-78: the drift array holds `k` at time index `k`
(cumsum of ones with a zeroed first slice), and
`GBM_samples = np.exp(sigma * np.sqrt(T / n1) * BM_samples + (r - sigma**2/2) * T / n1 * drift)`. -/
def GBM_samples (ex sq : F → F) (p : Params F) {m n1 : ℕ}
    (z : Fin m → Fin n1 → ι → F) : Fin m → Fin (n1 + 1) → ι → F :=
  fun i k j =>
    ex (p.sigma * sq (p.T / (n1 : F)) * brownianPath z i k j
      + (p.r - p.sigma ^ 2 / 2) * p.T / (n1 : F) * ((k : ℕ) : F))

/-- montecarlo.py lines 80-85, the trajectory moment-matching step:
`GBM_samples = GBM_samples * np.exp(r * T / n1 * drift) / np.mean(GBM_samples, axis=0)`. -/
def trajMomentMatch (ex : F → F) (p : Params F) {m n1 : ℕ}
    (G : Fin m → Fin (n1 + 1) → ι → F) : Fin m → Fin (n1 + 1) → ι → F :=
  fun i k j =>
    G i k j * ex (p.r * p.T / (n1 : F) * ((k : ℕ) : F))
      / mean0 (fun i' => G i' k) j

/-- montecarlo.py `get_samples_trajectory`: optional antithetic concatenation
of the raw normals, Brownian path construction, geometric-Brownian-motion
rescaling, optional trajectory moment matching, and final multiplication by
`S0`. -/
def get_samples_trajectory (ex sq : F → F) (p : Params F) {n0 n1 : ℕ}
    (anti mm : Bool) (z : Fin n0 → Fin n1 → ι → F) :
    Fin (antiLen anti n0) → Fin (n1 + 1) → ι → F :=
  fun i k j =>
    p.S0 *
      (match mm with
        | true => trajMomentMatch ex p (GBM_samples ex sq p (applyAnti anti z))
        | false => GBM_samples ex sq p (applyAnti anti z)) i k j

/-- montecarlo.py `MC_european_call_price`: discounted mean over axis 0 of the
call payoff `np.maximum(samples - K, 0)` of the terminal samples. -/
def MC_european_call_price (ex sq : F → F) (p : Params F) (K : F) {n0 : ℕ}
    (anti mm : Bool) (z : Fin n0 → ι → F) : ι → F :=
  fun j =>
    ex (-p.r * p.T) *
      mean0 (fun i j' => max (get_samples_final_value ex sq p anti mm z i j' - K) 0) j

/-- montecarlo.py `MC_barrier_call_price`, modelled on trajectory batches that
carry at least one axis beyond the time axis (the shapes on which the indexing
`samples[:, -1, :]` of line 124 is defined): the payoff at maturity is
multiplied by `1` when no monitored time step of the path lies strictly below
`H` (`~np.any(samples < H, axis=1)`) and by `0` otherwise, then the discounted
mean over axis 0 is returned. -/
def MC_barrier_call_price (ex sq : F → F) (p : Params F) (K H : F) {n0 n1 : ℕ}
    (anti mm : Bool) (z : Fin n0 → Fin n1 → ι → F) : ι → F :=
  fun j =>
    ex (-p.r * p.T) *
      mean0 (fun i j' =>
        (if ∀ k, ¬ get_samples_trajectory ex sq p anti mm z i k j' < H
          then (1 : F) else 0)
        * max (get_samples_trajectory ex sq p anti mm z i (Fin.last n1) j' - K) 0) j

/-- pricing_formulas.py `european_call_price`: the Black-Scholes formula, with
the log, square root, exponential and normal-cdf functions passed explicitly. -/
def european_call_price (ex lg sq cdf : F → F) (p : Params F) (K : F) : F :=
  p.S0 * cdf ((lg (p.S0 / K) + (p.r + p.sigma ^ 2 / 2) * p.T) / (p.sigma * sq p.T))
    - K * ex (-p.r * p.T) *
      cdf ((lg (p.S0 / K) + (p.r + p.sigma ^ 2 / 2) * p.T) / (p.sigma * sq p.T)
        - p.sigma * sq p.T)

/-- pricing_formulas.py `barrier_call_price`: the European price plus the
reflection correction, with the float power `**` passed as `rpw`. -/
def barrier_call_price (ex lg sq cdf : F → F) (rpw : F → F → F) (p : Params F)
    (K H : F) : F :=
  european_call_price ex lg sq cdf p K
    - rpw (H / p.S0) (1 + 2 * p.r / p.sigma ^ 2) * p.S0 *
        cdf ((lg (H ^ 2 / (p.S0 * K)) + (p.r + p.sigma ^ 2 / 2) * p.T)
          / (p.sigma * sq p.T))
    + rpw (H / p.S0) (-1 + 2 * p.r / p.sigma ^ 2) * K * ex (-p.r * p.T) *
        cdf ((lg (H ^ 2 / (p.S0 * K)) + (p.r + p.sigma ^ 2 / 2) * p.T)
          / (p.sigma * sq p.T) - p.sigma * sq p.T)

/-- Spec-side Black-Scholes formula, transcribed from the specification text:
`S0·Φ(d1) - K·e^{-rT}·Φ(d2)` with `d1 = (ln(S0/K) + (r + sigma²/2)T)/(sigma·sqrt(T))`
and `d2 = d1 - sigma·sqrt(T)`. -/
def spec_european_call_price (ex lg sq cdf : F → F) (p : Params F) (K : F) : F :=
  p.S0 * cdf ((lg (p.S0 / K) + (p.r + p.sigma ^ 2 / 2) * p.T) / (p.sigma * sq p.T))
    - K * ex (-p.r * p.T) *
      cdf ((lg (p.S0 / K) + (p.r + p.sigma ^ 2 / 2) * p.T) / (p.sigma * sq p.T)
        - p.sigma * sq p.T)

/-- Spec-side barrier formula, transcribed from the specification text: the
European call price minus `(H/S0)^{1 + 2r/sigma²}·S0·Φ(h1)` plus
`(H/S0)^{-1 + 2r/sigma²}·K·e^{-rT}·Φ(h2)` with
`h1 = (ln(H²/(S0·K)) + (r+sigma²/2)T)/(sigma·sqrt(T))` and
`h2 = h1 - sigma·sqrt(T)`. -/
def spec_barrier_call_price (ex lg sq cdf : F → F) (rpw : F → F → F)
    (p : Params F) (K H : F) : F :=
  spec_european_call_price ex lg sq cdf p K
    - rpw (H / p.S0) (1 + 2 * p.r / p.sigma ^ 2) * p.S0 *
        cdf ((lg (H ^ 2 / (p.S0 * K)) + (p.r + p.sigma ^ 2 / 2) * p.T)
          / (p.sigma * sq p.T))
    + rpw (H / p.S0) (-1 + 2 * p.r / p.sigma ^ 2) * K * ex (-p.r * p.T) *
        cdf ((lg (H ^ 2 / (p.S0 * K)) + (p.r + p.sigma ^ 2 / 2) * p.T)
          / (p.sigma * sq p.T) - p.sigma * sq p.T)

/-- Axis 0 keeps a positive length through the antithetic step. -/
theorem antiLen_pos {n0 : ℕ} (anti : Bool) (hn0 : 0 < n0) : 0 < antiLen anti n0 := by
  cases anti <;> simp [antiLen] <;> omega

/-- C5: `get_samples_final_value` maps each draw, after the variance-reduction
transforms of the raw normals, to exactly
`S0 * exp((r - sigma²/2)·T + sigma·sqrt(T)·z)`, elementwise over the batch. -/
theorem final_value_elementwise_formula (ex sq : F → F) (p : Params F) {n0 : ℕ}
    (anti mm : Bool) (z : Fin n0 → ι → F) (i : Fin (antiLen anti n0)) (j : ι) :
    get_samples_final_value ex sq p anti mm z i j
      = p.S0 * ex ((p.r - p.sigma ^ 2 / 2) * p.T
          + p.sigma * sq p.T * transformed_normals sq anti mm z i j) := rfl

/-- C7: `MC_european_call_price` returns `e^{-r·T}` times the mean over axis 0
only of the payoff `max(S_T - K, 0)`, where `S_T` is the batch produced by
`get_samples_final_value` with the same flags; the other axes (the argument
`j : ι`) are left intact. -/
theorem MC_euro_price_formula (ex sq : F → F) (p : Params F) (K : F) {n0 : ℕ}
    (anti mm : Bool) (z : Fin n0 → ι → F) (j : ι) :
    MC_european_call_price ex sq p K anti mm z j
      = ex (-(p.r * p.T)) *
          mean0 (fun i j' =>
            max (get_samples_final_value ex sq p anti mm z i j' - K) 0) j := by
  simp only [MC_european_call_price, neg_mul]

/-- C3 (supporting theorem): on the trajectory batches where the indexing
`samples[:, -1, :]` of line 124 is defined (at least one axis beyond the time
axis, i.e. 3- or 4-axis shapes), `MC_barrier_call_price` equals `e^{-r·T}`
times the mean over axis 0 only of the terminal call payoff zeroed out
entirely for every path some monitored time step of which lies strictly below
`H`; the remaining axes (the argument `j : ι`) are left intact. -/
theorem MC_barrier_price_reduces_axis0 (ex sq : F → F) (p : Params F) (K H : F)
    {n0 n1 : ℕ} (anti mm : Bool) (z : Fin n0 → Fin n1 → ι → F) (j : ι) :
    MC_barrier_call_price ex sq p K H anti mm z j
      = ex (-(p.r * p.T)) *
          mean0 (fun i j' =>
            if ∃ k, get_samples_trajectory ex sq p anti mm z i k j' < H then 0
            else max (get_samples_trajectory ex sq p anti mm z i (Fin.last n1) j' - K) 0) j := by
  have hfun : ∀ (i : Fin (antiLen anti n0)) (j' : ι),
      (if ∀ k, ¬ get_samples_trajectory ex sq p anti mm z i k j' < H then (1 : F) else 0)
        * max (get_samples_trajectory ex sq p anti mm z i (Fin.last n1) j' - K) 0
      = if ∃ k, get_samples_trajectory ex sq p anti mm z i k j' < H then 0
        else max (get_samples_trajectory ex sq p anti mm z i (Fin.last n1) j' - K) 0 := by
    intro i j'
    by_cases h : ∃ k, get_samples_trajectory ex sq p anti mm z i k j' < H
    · have hnall : ¬ ∀ k, ¬ get_samples_trajectory ex sq p anti mm z i k j' < H :=
        fun hall => hall h.choose h.choose_spec
      rw [if_pos h, if_neg hnall, zero_mul]
    · have hall : ∀ k, ¬ get_samples_trajectory ex sq p anti mm z i k j' < H :=
        fun k hk => h ⟨k, hk⟩
      rw [if_neg h, if_pos hall, one_mul]
  simp only [MC_barrier_call_price, neg_mul]
  simp only [hfun]

/-- C8: the analytic pricers are the pure closed-form functions of the
specification: `european_call_price` is the Black-Scholes formula in `d1`,
`d2`, and `barrier_call_price` is the European price corrected by the
reflection terms in `h1`, `h2` scaled by `(H/S0)^{1 ± 2r/sigma²}`. -/
theorem analytic_formulas_match_spec (ex lg sq cdf : F → F) (rpw : F → F → F)
    (p : Params F) (K H : F) (hS0 : 0 < p.S0) (hsig : p.sigma ≠ 0)
    (hT : 0 < p.T) (hK : 0 < K) (hHK : H < K) :
    european_call_price ex lg sq cdf p K = spec_european_call_price ex lg sq cdf p K
    ∧ barrier_call_price ex lg sq cdf rpw p K H
        = spec_barrier_call_price ex lg sq cdf rpw p K H :=
  ⟨rfl, rfl⟩

/-- C8 witness: the formula identity at a concrete parameter record. -/
theorem analytic_formulas_match_spec_witness :
    (0 : ℚ) < 1 ∧ (1 : ℚ) ≠ 0 ∧ (0 : ℚ) < 1 ∧
    (european_call_price id id id id (⟨1, 0, 1, 1⟩ : Params ℚ) 1
        = spec_european_call_price id id id id (⟨1, 0, 1, 1⟩ : Params ℚ) 1
      ∧ barrier_call_price id id id id (fun a b => a * b) (⟨1, 0, 1, 1⟩ : Params ℚ) 1 0
          = spec_barrier_call_price id id id id (fun a b => a * b) (⟨1, 0, 1, 1⟩ : Params ℚ) 1 0) :=
  ⟨by norm_num, by norm_num, by norm_num,
    analytic_formulas_match_spec id id id id (fun a b => a * b)
      (⟨1, 0, 1, 1⟩ : Params ℚ) 1 0 (by norm_num) (by norm_num) (by norm_num)
      (by norm_num) (by norm_num)⟩

/-- C10: with a single draw along axis 0 and antithetic disabled, the standard
deviation the moment-matching step of `get_samples_final_value` divides by is
exactly 0, and the division is applied unguarded: the transformed sample is
literally the centred sample divided by 0. -/
theorem single_sample_mm_divides_by_zero {ι : Type} (z : Fin 1 → ι → ℝ)
    (i : Fin 1) (j : ι) :
    std0 Real.sqrt (applyAnti false z) j = 0
    ∧ transformed_normals Real.sqrt false true z i j = (z i j - mean0 z j) / 0 := by
  have hstd : std0 Real.sqrt (applyAnti false z) j = 0 := by
    show std0 Real.sqrt z j = 0
    simp [std0, mean0, Fin.sum_univ_one]
  refine ⟨hstd, ?_⟩
  have : transformed_normals Real.sqrt false true z i j
      = (z i j - mean0 z j) / std0 Real.sqrt (applyAnti false z) j := rfl
  rw [this, hstd]

/-- C4: for every flag combination, the slice of the trajectory batch at time
index 0 equals `S0` exactly, for every draw `z` (so with no dependence on the
drawn normals). -/
theorem traj_initial_value_eq_S0 (ex sq : F → F) (hex0 : ex 0 = 1) (p : Params F)
    {n0 n1 : ℕ} (hn0 : 0 < n0) (hn1 : 0 < n1) (hS0 : 0 < p.S0)
    (hsig : 0 < p.sigma) (hT : 0 < p.T) (anti mm : Bool)
    (z : Fin n0 → Fin n1 → ι → F) (i : Fin (antiLen anti n0)) (j : ι) :
    get_samples_trajectory ex sq p anti mm z i 0 j = p.S0 := by
  have hmF : ((antiLen anti n0 : ℕ) : F) ≠ 0 :=
    Nat.cast_ne_zero.mpr (antiLen_pos anti hn0).ne'
  have hG : ∀ i' : Fin (antiLen anti n0),
      GBM_samples ex sq p (applyAnti anti z) i' 0 j = 1 := by
    intro i'
    have hBM : brownianPath (applyAnti anti z) i' 0 j = 0 := by
      simp [brownianPath]
    simp [GBM_samples, hBM, hex0]
  cases mm with
  | false =>
    show p.S0 * GBM_samples ex sq p (applyAnti anti z) i 0 j = p.S0
    rw [hG i, mul_one]
  | true =>
    show p.S0 * (GBM_samples ex sq p (applyAnti anti z) i 0 j
        * ex (p.r * p.T / ((n1 : ℕ) : F) * (((0 : Fin (n1 + 1)) : ℕ) : F))
        / mean0 (fun i' => GBM_samples ex sq p (applyAnti anti z) i' 0) j) = p.S0
    have hmean : mean0 (fun i' => GBM_samples ex sq p (applyAnti anti z) i' 0) j = 1 := by
      unfold mean0
      rw [Finset.sum_congr rfl fun i' _ => hG i']
      simp [hmF]
    rw [hG i, hmean]
    simp [hex0]

/-- C4 witness: the initial slice at a concrete shape, parameter record and
draw. -/
theorem traj_initial_value_eq_S0_witness :
    (0 : ℝ) < 1 ∧ 0 < 1 ∧
    get_samples_trajectory Real.exp Real.sqrt (⟨1, 0, 1, 1⟩ : Params ℝ) false false
      ((fun _ _ _ => (0 : ℝ)) : Fin 1 → Fin 1 → Unit → ℝ) 0 0 () = (1 : ℝ) :=
  ⟨by norm_num, by norm_num,
    traj_initial_value_eq_S0 Real.exp Real.sqrt Real.exp_zero
      (⟨1, 0, 1, 1⟩ : Params ℝ) (by norm_num) (by norm_num) (by norm_num)
      (by norm_num) (by norm_num) false false
      ((fun _ _ _ => (0 : ℝ)) : Fin 1 → Fin 1 → Unit → ℝ) 0 ()⟩

/-- C1: with moment matching enabled, the mean over axis 0 of the trajectory
batch at every time index `k` is exactly `S0·e^{r·t_k}` with
`t_k = k·T/n1`, for any antithetic flag and any draw. -/
theorem traj_mm_mean_matches_analytic (ex sq : F → F) (hex : ∀ x, 0 < ex x)
    (p : Params F) {n0 n1 : ℕ} (hn0 : 0 < n0) (hn1 : 0 < n1)
    (hS0 : 0 < p.S0) (hsig : 0 < p.sigma) (hT : 0 < p.T) (anti : Bool)
    (z : Fin n0 → Fin n1 → ι → F) (k : Fin (n1 + 1)) (j : ι) :
    mean0 (fun i => get_samples_trajectory ex sq p anti true z i k) j
      = p.S0 * ex (p.r * (((k : ℕ) : F) * p.T / (n1 : F))) := by
  have hm : 0 < antiLen anti n0 := antiLen_pos anti hn0
  have hmF : ((antiLen anti n0 : ℕ) : F) ≠ 0 := Nat.cast_ne_zero.mpr hm.ne'
  have hsum : 0 < ∑ i, GBM_samples ex sq p (applyAnti anti z) i k j :=
    Finset.sum_pos (fun i _ => hex _) ⟨⟨0, hm⟩, Finset.mem_univ _⟩
  have hSg : (∑ i, GBM_samples ex sq p (applyAnti anti z) i k j) ≠ 0 := ne_of_gt hsum
  have harg : p.r * p.T / (n1 : F) * ((k : ℕ) : F)
      = p.r * (((k : ℕ) : F) * p.T / (n1 : F)) := by ring
  calc mean0 (fun i => get_samples_trajectory ex sq p anti true z i k) j
      = (∑ i, p.S0 * (GBM_samples ex sq p (applyAnti anti z) i k j
            * ex (p.r * p.T / (n1 : F) * ((k : ℕ) : F))
            / ((∑ i', GBM_samples ex sq p (applyAnti anti z) i' k j)
                / ((antiLen anti n0 : ℕ) : F))))
          / ((antiLen anti n0 : ℕ) : F) := rfl
    _ = p.S0 * ex (p.r * p.T / (n1 : F) * ((k : ℕ) : F)) := by
        set E := ex (p.r * p.T / (n1 : F) * ((k : ℕ) : F)) with hE
        set Sg := ∑ i', GBM_samples ex sq p (applyAnti anti z) i' k j with hSgdef
        have hterm : ∀ i : Fin (antiLen anti n0),
            p.S0 * (GBM_samples ex sq p (applyAnti anti z) i k j * E
                / (Sg / ((antiLen anti n0 : ℕ) : F)))
              = p.S0 * E * ((antiLen anti n0 : ℕ) : F) / Sg
                  * GBM_samples ex sq p (applyAnti anti z) i k j := by
          intro i
          field_simp
          ring
        rw [Finset.sum_congr rfl fun i _ => hterm i, ← Finset.mul_sum, ← hSgdef,
          div_mul_cancel₀ _ hSg, mul_div_assoc, div_self hmF, mul_one]
    _ = p.S0 * ex (p.r * (((k : ℕ) : F) * p.T / (n1 : F))) := by rw [harg]

/-- C1 witness: the moment-matched mean at a concrete shape, parameter record
and draw. -/
theorem traj_mm_mean_matches_analytic_witness :
    (0 : ℝ) < 1 ∧ 0 < 1 ∧
    mean0 (fun i => get_samples_trajectory Real.exp Real.sqrt (⟨1, 0, 1, 1⟩ : Params ℝ)
        false true ((fun _ _ _ => (0 : ℝ)) : Fin 1 → Fin 1 → Unit → ℝ) i 0) ()
      = 1 * Real.exp (0 * ((((0 : Fin (1 + 1)) : ℕ) : ℝ) * 1 / ((1 : ℕ) : ℝ))) :=
  ⟨by norm_num, by norm_num,
    traj_mm_mean_matches_analytic Real.exp Real.sqrt Real.exp_pos
      (⟨1, 0, 1, 1⟩ : Params ℝ) (by norm_num) (by norm_num) (by norm_num)
      (by norm_num) (by norm_num) false
      ((fun _ _ _ => (0 : ℝ)) : Fin 1 → Fin 1 → Unit → ℝ) 0 ()⟩

/-- C2 (amended): with moment matching enabled the trajectory batch equals the
untransformed batch rescaled pointwise by `S0·e^{r·t_k} / mean(S_t, axis=0)`
(the claim's factor `e^{r·t_k} / mean(S_t, axis=0)` corrected by `S0`). -/
theorem traj_mm_rescale_amended (ex sq : F → F) (hex : ∀ x, 0 < ex x)
    (p : Params F) {n0 n1 : ℕ} (hn0 : 0 < n0) (hn1 : 0 < n1) (hS0 : 0 < p.S0)
    (hsig : 0 < p.sigma) (hT : 0 < p.T) (anti : Bool)
    (z : Fin n0 → Fin n1 → ι → F) (i : Fin (antiLen anti n0))
    (k : Fin (n1 + 1)) (j : ι) :
    get_samples_trajectory ex sq p anti true z i k j
      = get_samples_trajectory ex sq p anti false z i k j
        * (p.S0 * ex (p.r * (((k : ℕ) : F) * p.T / (n1 : F))))
        / mean0 (fun i' => get_samples_trajectory ex sq p anti false z i' k) j := by
  have hm : 0 < antiLen anti n0 := antiLen_pos anti hn0
  have hmF : ((antiLen anti n0 : ℕ) : F) ≠ 0 := Nat.cast_ne_zero.mpr hm.ne'
  have hsum : 0 < ∑ i', GBM_samples ex sq p (applyAnti anti z) i' k j :=
    Finset.sum_pos (fun i' _ => hex _) ⟨⟨0, hm⟩, Finset.mem_univ _⟩
  have hSg : (∑ i', GBM_samples ex sq p (applyAnti anti z) i' k j) ≠ 0 := ne_of_gt hsum
  have harg : p.r * p.T / (n1 : F) * ((k : ℕ) : F)
      = p.r * (((k : ℕ) : F) * p.T / (n1 : F)) := by ring
  have hL : get_samples_trajectory ex sq p anti true z i k j
      = p.S0 * (GBM_samples ex sq p (applyAnti anti z) i k j
          * ex (p.r * p.T / (n1 : F) * ((k : ℕ) : F))
          / ((∑ i', GBM_samples ex sq p (applyAnti anti z) i' k j)
              / ((antiLen anti n0 : ℕ) : F))) := rfl
  have hRS : get_samples_trajectory ex sq p anti false z i k j
      = p.S0 * GBM_samples ex sq p (applyAnti anti z) i k j := rfl
  have hR1 : mean0 (fun i' => get_samples_trajectory ex sq p anti false z i' k) j
      = (∑ i', p.S0 * GBM_samples ex sq p (applyAnti anti z) i' k j)
          / ((antiLen anti n0 : ℕ) : F) := rfl
  have hR2 : ∑ i', p.S0 * GBM_samples ex sq p (applyAnti anti z) i' k j
      = p.S0 * ∑ i', GBM_samples ex sq p (applyAnti anti z) i' k j := by
    rw [Finset.mul_sum]
  rw [hL, hRS, hR1, hR2, ← harg]
  field_simp
  ring

/-- C2 witness: the amended rescaling identity at a concrete shape, parameter
record and draw. -/
theorem traj_mm_rescale_amended_witness :
    (0 : ℝ) < 2 ∧
    get_samples_trajectory Real.exp Real.sqrt (⟨2, 0, 1, 1⟩ : Params ℝ) false true
        ((fun _ _ _ => (0 : ℝ)) : Fin 1 → Fin 1 → Unit → ℝ) 0 0 ()
      = get_samples_trajectory Real.exp Real.sqrt (⟨2, 0, 1, 1⟩ : Params ℝ) false false
          ((fun _ _ _ => (0 : ℝ)) : Fin 1 → Fin 1 → Unit → ℝ) 0 0 ()
        * (2 * Real.exp (0 * ((((0 : Fin (1 + 1)) : ℕ) : ℝ) * 1 / ((1 : ℕ) : ℝ))))
        / mean0 (fun i' => get_samples_trajectory Real.exp Real.sqrt
            (⟨2, 0, 1, 1⟩ : Params ℝ) false false
            ((fun _ _ _ => (0 : ℝ)) : Fin 1 → Fin 1 → Unit → ℝ) i' 0) () :=
  ⟨by norm_num,
    traj_mm_rescale_amended Real.exp Real.sqrt Real.exp_pos
      (⟨2, 0, 1, 1⟩ : Params ℝ) (by norm_num) (by norm_num) (by norm_num)
      (by norm_num) (by norm_num) false
      ((fun _ _ _ => (0 : ℝ)) : Fin 1 → Fin 1 → Unit → ℝ) 0 0 ()⟩

/-- C2 counterexample: at `S0 = 2`, `r = 0`, `sigma = 1`, `T = 1`, shape
`(1, 1)`, zero draw and time index 0, the code returns `2` while the claim's
rescaling formula `S_t · e^{r·t} / mean(S_t, axis=0)` evaluates to `1`, so the
claim as stated is false. -/
theorem traj_mm_rescale_counterexample :
    ¬ (get_samples_trajectory Real.exp Real.sqrt (⟨2, 0, 1, 1⟩ : Params ℝ) false true
          ((fun _ _ _ => (0 : ℝ)) : Fin 1 → Fin 1 → Unit → ℝ) 0 0 ()
        = get_samples_trajectory Real.exp Real.sqrt (⟨2, 0, 1, 1⟩ : Params ℝ) false false
            ((fun _ _ _ => (0 : ℝ)) : Fin 1 → Fin 1 → Unit → ℝ) 0 0 ()
          * Real.exp (0 * ((((0 : Fin (1 + 1)) : ℕ) : ℝ) * 1 / ((1 : ℕ) : ℝ)))
          / mean0 (fun i' => get_samples_trajectory Real.exp Real.sqrt
              (⟨2, 0, 1, 1⟩ : Params ℝ) false false
              ((fun _ _ _ => (0 : ℝ)) : Fin 1 → Fin 1 → Unit → ℝ) i' 0) ()) := by
  intro h
  simp only [get_samples_trajectory, trajMomentMatch, GBM_samples, brownianPath,
    applyAnti, mean0, Fin.sum_univ_one, Fin.val_zero, Nat.cast_zero, Nat.cast_one] at h
  norm_num [Real.exp_zero] at h

/-- Core moment-matching identity for raw normals: when the standard deviation
along axis 0 is nonzero, the rescaled sample has mean exactly 0 and standard
deviation exactly 1 along axis 0. -/
theorem mm_mean_std_core {ι : Type} {m : ℕ} (hm : 0 < m) (w : Fin m → ι → ℝ)
    (j : ι) (hstd : std0 Real.sqrt w j ≠ 0) :
    mean0 (momentMatchNormals Real.sqrt w) j = 0
    ∧ std0 Real.sqrt (momentMatchNormals Real.sqrt w) j = 1 := by
  have hmF : ((m : ℕ) : ℝ) ≠ 0 := Nat.cast_ne_zero.mpr hm.ne'
  have hVnn : 0 ≤ (∑ i, (w i j - mean0 w j) ^ 2) / (m : ℝ) :=
    div_nonneg (Finset.sum_nonneg fun i _ => sq_nonneg _) (Nat.cast_nonneg m)
  have hsEq : std0 Real.sqrt w j
      = Real.sqrt ((∑ i, (w i j - mean0 w j) ^ 2) / (m : ℝ)) := rfl
  have hVne : (∑ i, (w i j - mean0 w j) ^ 2) / (m : ℝ) ≠ 0 := by
    intro h0
    exact hstd (by rw [hsEq, h0, Real.sqrt_zero])
  have hsq : (std0 Real.sqrt w j) ^ 2
      = (∑ i, (w i j - mean0 w j) ^ 2) / (m : ℝ) := by
    rw [hsEq, Real.sq_sqrt hVnn]
  have hMsum : ((m : ℕ) : ℝ) * mean0 w j = ∑ i, w i j := by
    have hrepr : mean0 w j = (∑ i, w i j) / ((m : ℕ) : ℝ) := rfl
    rw [hrepr]
    field_simp
  have hsumd : ∑ i, (w i j - mean0 w j) = 0 := by
    rw [Finset.sum_sub_distrib, Finset.sum_const, Finset.card_univ,
      Fintype.card_fin, nsmul_eq_mul, hMsum, sub_self]
  have hmean : mean0 (momentMatchNormals Real.sqrt w) j = 0 := by
    have hrepr : mean0 (momentMatchNormals Real.sqrt w) j
        = (∑ i, (w i j - mean0 w j) / std0 Real.sqrt w j) / (m : ℝ) := rfl
    rw [hrepr, ← Finset.sum_div, hsumd, zero_div, zero_div]
  refine ⟨hmean, ?_⟩
  have hrepr : std0 Real.sqrt (momentMatchNormals Real.sqrt w) j
      = Real.sqrt ((∑ i, ((w i j - mean0 w j) / std0 Real.sqrt w j
          - mean0 (momentMatchNormals Real.sqrt w) j) ^ 2) / (m : ℝ)) := rfl
  rw [hrepr, hmean]
  simp only [sub_zero]
  have hterm : ∀ i : Fin m, ((w i j - mean0 w j) / std0 Real.sqrt w j) ^ 2
      = (w i j - mean0 w j) ^ 2 / (std0 Real.sqrt w j) ^ 2 := by
    intro i
    rw [div_pow]
  rw [Finset.sum_congr rfl fun i _ => hterm i, ← Finset.sum_div, hsq]
  have hSne : (∑ i, (w i j - mean0 w j) ^ 2) ≠ 0 := by
    intro h0
    exact hVne (by rw [h0, zero_div])
  have hone : ((∑ i, (w i j - mean0 w j) ^ 2)
      / ((∑ i, (w i j - mean0 w j) ^ 2) / (m : ℝ))) / (m : ℝ) = 1 := by
    field_simp
  rw [hone, Real.sqrt_one]

/-- C6 (amended): for a batch whose empirical standard deviation along axis 0
after the (optional) antithetic step is nonzero, the moment-matched raw-normal
sample has empirical mean exactly 0 and standard deviation exactly 1 along
axis 0; the antithetic concatenation is applied first and the moment-matching
rescaling is applied to its result. -/
theorem mm_normals_mean_std_amended {ι : Type} {n0 : ℕ} (hn0 : 2 ≤ n0)
    (anti : Bool) (z : Fin n0 → ι → ℝ) (j : ι)
    (hstd : std0 Real.sqrt (applyAnti anti z) j ≠ 0) :
    mean0 (transformed_normals Real.sqrt anti true z) j = 0
    ∧ std0 Real.sqrt (transformed_normals Real.sqrt anti true z) j = 1 :=
  mm_mean_std_core (antiLen_pos anti (by omega)) (applyAnti anti z) j hstd

/-- C6 witness: the amended mean/standard-deviation identity at a concrete
nondegenerate batch. -/
theorem mm_normals_mean_std_amended_witness :
    2 ≤ 2 ∧
    (mean0 (transformed_normals Real.sqrt false true
        ((fun i _ => 2 * ((i : ℕ) : ℝ)) : Fin 2 → Unit → ℝ)) () = 0
     ∧ std0 Real.sqrt (transformed_normals Real.sqrt false true
        ((fun i _ => 2 * ((i : ℕ) : ℝ)) : Fin 2 → Unit → ℝ)) () = 1) :=
  ⟨le_refl 2,
    mm_normals_mean_std_amended (le_refl 2) false
      ((fun i _ => 2 * ((i : ℕ) : ℝ)) : Fin 2 → Unit → ℝ) ()
      (by
        have hval : std0 Real.sqrt
            ((fun i _ => 2 * ((i : ℕ) : ℝ)) : Fin 2 → Unit → ℝ) () = 1 := by
          norm_num [std0, mean0, Fin.sum_univ_two, Real.sqrt_one]
        show std0 Real.sqrt
            ((fun i _ => 2 * ((i : ℕ) : ℝ)) : Fin 2 → Unit → ℝ) () ≠ 0
        rw [hval]
        exact one_ne_zero)⟩

/-- C6 counterexample: for the constant zero batch of axis-0 length 2 the
moment-matched sample has standard deviation 0, not 1, so the claim quantified
over every normal sample batch is false. -/
theorem mm_normals_claim_counterexample :
    ¬ (mean0 (transformed_normals Real.sqrt false true
          ((fun _ _ => (0 : ℝ)) : Fin 2 → Unit → ℝ)) () = 0
       ∧ std0 Real.sqrt (transformed_normals Real.sqrt false true
          ((fun _ _ => (0 : ℝ)) : Fin 2 → Unit → ℝ)) () = 1) := by
  rintro ⟨-, h⟩
  have hz : std0 Real.sqrt (transformed_normals Real.sqrt false true
      ((fun _ _ => (0 : ℝ)) : Fin 2 → Unit → ℝ)) () = 0 := by
    show std0 Real.sqrt (momentMatchNormals Real.sqrt
      ((fun _ _ => (0 : ℝ)) : Fin 2 → Unit → ℝ)) () = 0
    norm_num [std0, momentMatchNormals, mean0, Fin.sum_univ_two, Real.sqrt_zero]
  rw [hz] at h
  exact one_ne_zero h.symm

/-- C9: in exact real arithmetic every entry of the terminal batch and of the
trajectory batch is strictly positive (hence finite), for every flag
combination and every draw. -/
theorem samples_strictly_positive (ex sq : F → F) (hex : ∀ x, 0 < ex x)
    (p : Params F) (hS0 : 0 < p.S0) (hsig : 0 < p.sigma) (hT : 0 < p.T)
    {n0 n1 : ℕ} (hn0 : 0 < n0) (anti mm : Bool) (zf : Fin n0 → ι → F)
    (zt : Fin n0 → Fin n1 → ι → F) (i : Fin (antiLen anti n0))
    (k : Fin (n1 + 1)) (j : ι) :
    0 < get_samples_final_value ex sq p anti mm zf i j
    ∧ 0 < get_samples_trajectory ex sq p anti mm zt i k j := by
  have hm : 0 < antiLen anti n0 := antiLen_pos anti hn0
  constructor
  · exact mul_pos hS0 (hex _)
  · cases mm with
    | false => exact mul_pos hS0 (hex _)
    | true =>
      have hmean : 0 < mean0 (fun i' => GBM_samples ex sq p (applyAnti anti zt) i' k) j := by
        have hsum : 0 < ∑ i', GBM_samples ex sq p (applyAnti anti zt) i' k j :=
          Finset.sum_pos (fun i' _ => hex _) ⟨⟨0, hm⟩, Finset.mem_univ _⟩
        have hmFpos : (0 : F) < ((antiLen anti n0 : ℕ) : F) := by exact_mod_cast hm
        exact div_pos hsum hmFpos
      show 0 < p.S0 * (GBM_samples ex sq p (applyAnti anti zt) i k j
          * ex (p.r * p.T / (n1 : F) * ((k : ℕ) : F))
          / mean0 (fun i' => GBM_samples ex sq p (applyAnti anti zt) i' k) j)
      exact mul_pos hS0 (div_pos (mul_pos (hex _) (hex _)) hmean)

/-- C9 witness: positivity of both batches at a concrete shape, parameter
record and draw. -/
theorem samples_strictly_positive_witness :
    (0 : ℝ) < 1 ∧
    (0 < get_samples_final_value Real.exp Real.sqrt (⟨1, 0, 1, 1⟩ : Params ℝ)
        false false ((fun _ _ => (0 : ℝ)) : Fin 1 → Unit → ℝ) 0 ()
     ∧ 0 < get_samples_trajectory Real.exp Real.sqrt (⟨1, 0, 1, 1⟩ : Params ℝ)
        false false ((fun _ _ _ => (0 : ℝ)) : Fin 1 → Fin 1 → Unit → ℝ) 0 0 ()) :=
  ⟨by norm_num,
    samples_strictly_positive Real.exp Real.sqrt Real.exp_pos
      (⟨1, 0, 1, 1⟩ : Params ℝ) (by norm_num) (by norm_num) (by norm_num)
      (by norm_num) false false ((fun _ _ => (0 : ℝ)) : Fin 1 → Unit → ℝ)
      ((fun _ _ _ => (0 : ℝ)) : Fin 1 → Fin 1 → Unit → ℝ) 0 0 ()⟩

end OptionsPricing
